import Mathlib

/-!
Verification of the text-to-structure pipeline in
`src/extract_state_demographics.py` (state segmentation, block parsing,
normalization, baseline aggregation).  Python floats are modelled by exact
rationals (`ℚ`), Python `None` by `Option`, pandas tables by lists of records.
All text is handled as `List Char` (structural recursion) so that every
definition evaluates by kernel reduction; a `String` is wrapped or unwrapped
only at component boundaries.
-/

set_option maxRecDepth 16000

namespace Demographics

/-! ## Character-list models of the Python string primitives -/

/-- Python `str.lower` (the document is ASCII). -/
def toLowerL (cs : List Char) : List Char := cs.map Char.toLower

/-- Python `str.upper` (the document is ASCII). -/
def toUpperL (cs : List Char) : List Char := cs.map Char.toUpper

/-- Python `str.strip()`: drop leading and trailing whitespace. -/
def trimL (cs : List Char) : List Char :=
  ((cs.dropWhile Char.isWhitespace).reverse.dropWhile Char.isWhitespace).reverse

/-- Python `str.split()` with no argument: maximal non-whitespace runs, the
current run carried reversed in the accumulator. -/
def wordsAux : List Char → List Char → List (List Char)
  | [], acc => if acc.isEmpty then [] else [acc.reverse]
  | c :: t, acc =>
    if c.isWhitespace then
      if acc.isEmpty then wordsAux t [] else acc.reverse :: wordsAux t []
    else wordsAux t (c :: acc)

/-- Python `str.split()` with no argument. -/
def wordsOf (cs : List Char) : List (List Char) := wordsAux cs []

/-- Split at newline characters (the line separator of this document). -/
def splitNlAux : List Char → List Char → List (List Char)
  | [], acc => [acc.reverse]
  | c :: t, acc => if c == '\n' then acc.reverse :: splitNlAux t [] else splitNlAux t (c :: acc)

/-- Python `needle in hay` substring test on character lists. -/
def hasInfix (needle : List Char) : List Char → Bool
  | [] => needle.isEmpty
  | c :: t => needle.isPrefixOf (c :: t) || hasInfix needle t

/-- Case-insensitive match of an (already lowercased) literal pattern at the
head of the input, as the IGNORECASE regexes do. -/
def ciPrefixAux : List Char → List Char → Bool
  | [], _ => true
  | _ :: _, [] => false
  | p :: ps, c :: cs => (c.toLower == p) && ciPrefixAux ps cs

/-! ## Block parser: the percentage-token regex `pct_re = (-?\d+\.\d+%|-?\d+%)`

A match of the body at the head of a character list is deterministic: the
first alternative needs `digits '.' digits '%'`, the second `digits '%'`;
`\d+` is greedy and, because a digit run can only be followed by a
non-digit, backtracking inside `\d+` can never produce a match that the
maximal run does not. -/

/-- Match `\d+\.\d+%` (first alternative of `pct_re`) or `\d+%` (second
alternative) at the head of `cs`; returns the matched characters and the
rest of the input. -/
def matchPctBody (cs : List Char) : Option (List Char × List Char) :=
  let d1 := cs.takeWhile Char.isDigit
  let r1 := cs.dropWhile Char.isDigit
  if d1.isEmpty then none else
  match r1 with
  | '.' :: r2 =>
    let d2 := r2.takeWhile Char.isDigit
    let r3 := r2.dropWhile Char.isDigit
    if d2.isEmpty then none else
    match r3 with
    | '%' :: r4 => some (d1 ++ '.' :: (d2 ++ ['%']), r4)
    | _ => none
  | '%' :: r2 => some (d1 ++ ['%'], r2)
  | _ => none

/-- Match the full `pct_re` token `-?\d+\.\d+%|-?\d+%` at the head of `cs`.
When the optional `-` is consumed but the body fails, backtracking retries
without the `-`, which then fails at once since `-` is not a digit. -/
def matchPctAt (cs : List Char) : Option (List Char × List Char) :=
  match cs with
  | '-' :: t =>
    match matchPctBody t with
    | some (tok, rest) => some ('-' :: tok, rest)
    | none => none
  | _ => matchPctBody cs

/-- Does a `pct_re` token match at the head of the input? -/
def startsWithPct (cs : List Char) : Bool := (matchPctAt cs).isSome

/-- Model of `pct_re.findall`: scan left to right, taking non-overlapping
matches and restarting one character later on failure.  The fuel argument
is the input length, which always suffices because a match consumes at
least one character. -/
def pctFindallAux : Nat → List Char → List (List Char)
  | 0, _ => []
  | _, [] => []
  | fuel + 1, c :: t =>
    match matchPctAt (c :: t) with
    | some (tok, rest) => tok :: pctFindallAux fuel rest
    | none => pctFindallAux fuel t

/-- `pct_re.findall(s)` on the characters of a line. -/
def pctFindall (cs : List Char) : List (List Char) := pctFindallAux cs.length cs

/-! ## Numeric parsing: `float(x.strip('%'))` -/

/-- Digit string to natural number. -/
def natOfDigits (cs : List Char) : Nat :=
  cs.foldl (fun a c => 10 * a + (c.toNat - '0'.toNat)) 0

/-- Python `x.strip('%')`: remove leading and trailing `%` characters. -/
def stripPct (cs : List Char) : List Char :=
  ((cs.dropWhile (fun c => c == '%')).reverse.dropWhile (fun c => c == '%')).reverse

/-- Python `float` on an unsigned literal of the shape `\d+(\.\d+)?`, the
only shapes reaching it here (tokens produced by `pct_re` with the `%`
stripped); anything else is mapped to `none` (a raised `ValueError`). -/
def parseUnsignedQ (cs : List Char) : Option ℚ :=
  let d1 := cs.takeWhile Char.isDigit
  let r1 := cs.dropWhile Char.isDigit
  if d1.isEmpty then none else
  match r1 with
  | [] => some (natOfDigits d1)
  | '.' :: r2 =>
    let d2 := r2.takeWhile Char.isDigit
    let r3 := r2.dropWhile Char.isDigit
    if d2.isEmpty || !r3.isEmpty then none
    else some (mkRat (natOfDigits (d1 ++ d2)) ((10 : Nat) ^ d2.length))
  | _ => none

/-- Python `float` on an optionally signed literal. -/
def parseFloatQ (cs : List Char) : Option ℚ :=
  match cs with
  | '-' :: t => (parseUnsignedQ t).map (fun q => -q)
  | _ => parseUnsignedQ cs

/-- `nums = [float(x.strip('%')) for x in pcts]` inside `try/except`: one
failing token empties the whole list. -/
def toNums (pcts : List (List Char)) : List ℚ :=
  match pcts.mapM (fun t => parseFloatQ (stripPct t)) with
  | some l => l
  | none => []

/-! ## NumericValues and the count-based mapping -/

/-- The `vals` dictionary of one group line: the four canonical fields plus
the positional `colN` overflow entries. -/
structure Vals where
  total_pct : Option ℚ
  dem_pct : Option ℚ
  gop_pct : Option ℚ
  other_pct : Option ℚ
  overflow : List (Nat × ℚ)
deriving DecidableEq

/-- The count-based mapping of `parse_state_block`: four or more values fill
the canonical fields from the first four; three fill (dem, gop, other); two
fill (dem, gop); otherwise each value goes positionally into `colN`. -/
def mapNums (nums : List ℚ) : Vals :=
  match nums with
  | a :: b :: c :: d :: _ => ⟨some a, some b, some c, some d, []⟩
  | [a, b, c] => ⟨none, some a, some b, some c, []⟩
  | [a, b] => ⟨none, some a, some b, none, []⟩
  | rest => ⟨none, none, none, none, rest.enum⟩

/-! ## Classification -/

inductive GType
  | Age
  | Race
  | Education
  | Gender
  | Misc
deriving DecidableEq

/-- A character of the regex class `[\s\-\–]` (whitespace, hyphen, en-dash). -/
def isAgeSep (c : Char) : Bool := c.isWhitespace || c == '-' || c == '–'

/-- Does one alternative of the age regex
`18[\s\-\–]29|30[\s\-\–]44|45[\s\-\–]64|65\+|65 \+` match at this position? -/
def ageMatchAt (cs : List Char) : Bool :=
  (match cs with | '1' :: '8' :: c :: '2' :: '9' :: _ => isAgeSep c | _ => false) ||
  (match cs with | '3' :: '0' :: c :: '4' :: '4' :: _ => isAgeSep c | _ => false) ||
  (match cs with | '4' :: '5' :: c :: '6' :: '4' :: _ => isAgeSep c | _ => false) ||
  (match cs with | '6' :: '5' :: '+' :: _ => true | _ => false) ||
  (match cs with | '6' :: '5' :: ' ' :: '+' :: _ => true | _ => false)

/-- `re.search` of the age regex: does it match at some position? -/
def hasAgeToken : List Char → Bool
  | [] => false
  | c :: t => ageMatchAt (c :: t) || hasAgeToken t

def raceKeys : List String :=
  ["white", "black", "hispanic", "latino", "asian", "native", "multiracial"]

def eduKeys : List String :=
  ["college", "no college", "some college", "high school", "hs", "postgraduate", "college grad"]

def genderKeys : List String :=
  ["men", "women", "non-binary", "nonbinary"]

/-- Python `k in l` substring test for a keyword on a line. -/
def hasKey (l : List Char) (k : String) : Bool := hasInfix k.data l

/-- The group-type heuristics of `parse_state_block`, applied to the
whitespace-collapsed line `s` (the code lowercases it first). -/
def classifyLine (s : String) : GType :=
  let l := toLowerL s.data
  if hasAgeToken l then .Age
  else if raceKeys.any (fun k => hasKey l k) then .Race
  else if eduKeys.any (fun k => hasKey l k) then .Education
  else if genderKeys.any (fun k => hasKey l k) then .Gender
  else .Misc

/-! ## Label extraction: `re.match(r'^(.{1,80}?)\s+(-?\d+\.\d+%|-?\d+%)', s)`

The lazy `.{1,80}?` takes the smallest k in [1,80] such that position k
starts with whitespace followed (after one or more whitespace characters)
by a `pct_re` token.  `s` is whitespace-collapsed at the call site, so it
contains no newline and `.` matches every character of it. -/

/-- `\s+` then a `pct_re` token, matching at the head of the input. -/
def wsThenPct : List Char → Bool
  | [] => false
  | c :: t => c.isWhitespace && (startsWithPct t || wsThenPct t)

/-- Scan k = k₀, k₀+1, ... while fuel lasts for the least split point. -/
def findLabelLenAux : Nat → List Char → Nat → Option Nat
  | 0, _, _ => none
  | fuel + 1, cs, k =>
    if cs.length < k then none
    else if wsThenPct (cs.drop k) then some k
    else findLabelLenAux fuel cs (k + 1)

/-- The length captured by the lazy `.{1,80}?` of the label regex. -/
def findLabelLen (cs : List Char) : Option Nat := findLabelLenAux 80 cs 1

/-- `mlabel.group(1).strip() if mlabel else None`. -/
def labelOf (s : String) : Option String :=
  (findLabelLen s.data).map (fun k => String.mk (trimL (s.data.take k)))

/-! ## Lines, whitespace collapsing, sample size -/

/-- `' '.join(ln.split())`: collapse whitespace runs to single spaces. -/
def collapse (s : String) : String :=
  String.mk (List.intercalate [' '] (wordsOf s.data))

/-- `[ln.strip() for ln in text.splitlines() if ln.strip()]` (line breaks in
this document are newline characters). -/
def linesOf (text : String) : List String :=
  (((splitNlAux text.data []).map (fun l => String.mk (trimL l))).filter (fun l => l ≠ ""))

/-- Match `sample_re = Sample Size[:\s]+([\d,]+)` (IGNORECASE) at the head of
`cs`, returning the captured digit/comma run.  The separator class and the
captured class are disjoint, so greedy matching is deterministic. -/
def matchSampleAt (cs : List Char) : Option (List Char) :=
  if ciPrefixAux "sample size".data cs then
    let r := cs.drop 11
    let sep := r.takeWhile (fun c => c == ':' || c.isWhitespace)
    let r2 := r.dropWhile (fun c => c == ':' || c.isWhitespace)
    let ds := r2.takeWhile (fun c => c.isDigit || c == ',')
    if sep.isEmpty || ds.isEmpty then none else some ds
  else none

/-- `sample_re.search`: leftmost match. -/
def sampleSearch : List Char → Option (List Char)
  | [] => none
  | c :: t =>
    match matchSampleAt (c :: t) with
    | some ds => some ds
    | none => sampleSearch t

/-- `int(m.group(1).replace(",", ""))` inside `try/except`: an all-comma
capture becomes the empty string, on which `int` raises, giving `None`. -/
def parseSampleInt (ds : List Char) : Option Int :=
  let digits := ds.filter (fun c => c ≠ ',')
  if digits.isEmpty then none else some (natOfDigits digits : Int)

/-- The sample-size loop: first line (among those given) with a `sample_re`
match wins, whether or not the integer parse then succeeds. -/
def findSample : List String → Option Int
  | [] => none
  | ln :: rest =>
    match sampleSearch ln.data with
    | some ds => parseSampleInt ds
    | none => findSample rest

/-! ## parse_state_block -/

/-- One group entry: optional label, collapsed source line, numeric values. -/
structure Entry where
  label : Option String
  line : String
  values : Vals
deriving DecidableEq

/-- The result of `parse_state_block`. -/
structure ParsedState where
  sample_size : Option Int
  groups : List (GType × List Entry)
  raw_header : String
deriving DecidableEq

/-- Append an entry to `groups[gtype]` with `defaultdict(list)` semantics:
keys keep first-insertion order, entries keep append order. -/
def addToGroups : List (GType × List Entry) → GType → Entry → List (GType × List Entry)
  | [], g, e => [(g, [e])]
  | (g', l) :: t, g, e =>
    if g' = g then (g', l ++ [e]) :: t else (g', l) :: addToGroups t g e

/-- Parse one qualifying line into its group type and entry. -/
def parseLine (ln : String) : GType × Entry :=
  let s := collapse ln
  (classifyLine s, ⟨labelOf s, s, mapNums (toNums (pctFindall s.data))⟩)

/-- The body of the group-line loop of `parse_state_block`: a line is skipped
exactly when it contains no `%` character. -/
def lineStep (gs : List (GType × List Entry)) (ln : String) : List (GType × List Entry) :=
  if ln.data.contains '%' then
    let pe := parseLine ln
    addToGroups gs pe.1 pe.2
  else gs

/-- `parse_state_block(text)`: sample size from the first 80 lines, one entry
per line containing a `%` character. -/
def parse_state_block (text : String) : ParsedState :=
  let lines := linesOf text
  { sample_size := findSample (lines.take 80)
    groups := lines.foldl lineStep []
    raw_header := lines.headD "" }

/-- Total number of group entries in a parsed state. -/
def entryCount (gs : List (GType × List Entry)) : Nat :=
  (gs.map (fun ge => ge.2.length)).sum

/-! ## Normalizer: flatten, coerce, filter, rescale -/

/-- One flattened row before the `dropna` filter (all numeric fields still
optional, exactly as produced by `rows.append({...})`). -/
structure Row where
  state : String
  state_sample : Option Int
  group_type : GType
  label : Option String
  total_pct : Option ℚ
  dem_pct : Option ℚ
  gop_pct : Option ℚ
  other_pct : Option ℚ
  source_line : String
deriving DecidableEq

/-- `pdata.get("sample_size") or None`: Python `or` maps the falsy values
`None` and `0` to `None`. -/
def orNone : Option Int → Option Int
  | some n => if n = 0 then none else some n
  | none => none

/-- The row-building loop of `normalize_and_flatten`: one row per entry, in
state order, then group-key insertion order, then entry order. -/
def flattenRows (parsed : List (String × ParsedState)) : List Row :=
  parsed.flatMap (fun sp =>
    sp.2.groups.flatMap (fun ge =>
      ge.2.map (fun e =>
        ⟨sp.1, orNone sp.2.sample_size, ge.1, e.label, e.values.total_pct,
         e.values.dem_pct, e.values.gop_pct, e.values.other_pct, e.line⟩)))

/-- The `dropna(subset=["state_sample", "total_pct", "dem_pct"])` test.  The
values are numeric or missing by construction, so `pd.to_numeric(...,
errors="coerce")` is the identity on them and a row survives exactly when
the three fields are present. -/
def keepRow (r : Row) : Bool :=
  r.state_sample.isSome && r.total_pct.isSome && r.dem_pct.isSome

/-- A retained row: the three required fields are numeric (non-null). -/
structure CleanRow where
  state : String
  state_sample : ℚ
  group_type : GType
  label : Option String
  total_pct : ℚ
  dem_pct : ℚ
  gop_pct : Option ℚ
  other_pct : Option ℚ
  source_line : String
deriving DecidableEq

/-- Read the numeric columns out of a retained row (each `getD` is only
reached behind a `keepRow` guard, where the field is present). -/
def extractClean (r : Row) : CleanRow :=
  ⟨r.state, ((r.state_sample.getD 0 : Int) : ℚ), r.group_type, r.label,
   r.total_pct.getD 0, r.dem_pct.getD 0, r.gop_pct, r.other_pct, r.source_line⟩

/-- `df_clean = df.dropna(subset=["state_sample", "total_pct", "dem_pct"])`. -/
def dfClean (parsed : List (String × ParsedState)) : List CleanRow :=
  ((flattenRows parsed).filter keepRow).map extractClean

/-- `sum_by_state = df_clean.groupby("state")["total_pct"].sum()`, computed
once on the unmodified table. -/
def stateSum (rows : List CleanRow) (st : String) : ℚ :=
  ((rows.filter (fun r => r.state = st)).map (fun r => r.total_pct)).sum

/-- The rescaling loop body for one row: a state with non-positive sum is
skipped, a state whose sum lies in [95, 105] is left alone, otherwise
`total_pct` becomes `total_pct / sum * 100`.  The sums are the precomputed
ones, so rescaling one state never affects another state's factor. -/
def rescaleRow (rows : List CleanRow) (r : CleanRow) : CleanRow :=
  let s := stateSum rows r.state
  if s ≤ 0 then r
  else if 95 ≤ s ∧ s ≤ 105 then r
  else { r with total_pct := r.total_pct / s * 100 }

/-- The whole rescaling pass. -/
def rescale (rows : List CleanRow) : List CleanRow := rows.map (rescaleRow rows)

/-- A row of the final flattened table, with the derived columns. -/
structure FlatRow where
  state : String
  state_sample : ℚ
  group_type : GType
  label : Option String
  total_pct : ℚ
  dem_pct : ℚ
  gop_pct : Option ℚ
  other_pct : Option ℚ
  source_line : String
  grp_share_of_state : ℚ
  dem_rate : ℚ
deriving DecidableEq

/-- `df_clean["grp_share_of_state"] = total_pct / 100` and
`df_clean["dem_rate"] = dem_pct / 100`. -/
def addDerived (rows : List CleanRow) : List FlatRow :=
  rows.map (fun r =>
    ⟨r.state, r.state_sample, r.group_type, r.label, r.total_pct, r.dem_pct,
     r.gop_pct, r.other_pct, r.source_line, r.total_pct / 100, r.dem_pct / 100⟩)

/-- `normalize_and_flatten`.  When no row at all was flattened,
`pd.DataFrame(rows)` has no columns and `df.dropna(subset=[...])` raises
`KeyError` for the missing labels; that raised exception is the `.error`
branch.  With at least one row the subset columns exist and the pipeline
proceeds. -/
def normalize_and_flatten (parsed : List (String × ParsedState)) :
    Except String (List FlatRow) :=
  if flattenRows parsed = [] then
    .error "KeyError"
  else
    .ok (addDerived (rescale (dfClean parsed)))

/-! ## Baseline aggregator -/

structure Baseline where
  state : String
  sample_size : ℚ
  baseline_dem_share : Option ℚ
  baseline_margin : Option ℚ
deriving DecidableEq

/-- Stable insertion for the sorted group keys of `df.groupby("state")`. -/
def insertStr (x : String) : List String → List String
  | [] => [x]
  | y :: t => if x < y then x :: y :: t else y :: insertStr x t

/-- Sort strings ascending (pandas sorts group keys). -/
def sortStrings (l : List String) : List String :=
  l.foldl (fun acc x => insertStr x acc) []

/-- The group keys of `df.groupby("state")`: distinct states, sorted. -/
def statesOf (df : List FlatRow) : List String :=
  sortStrings (df.map (fun r => r.state)).dedup

/-- `sample = g["state_sample"].iloc[0]`: the shared state-level sample of a
group (the `[]` default is never reached — `groupby` groups are nonempty). -/
def sampleOf (g : List FlatRow) : ℚ :=
  match g with
  | [] => 0
  | r :: _ => r.state_sample

/-- `dem_votes = (g["grp_share_of_state"] * g["dem_rate"] * sample).sum()`. -/
def demVotes (g : List FlatRow) : ℚ :=
  (g.map (fun r => r.grp_share_of_state * r.dem_rate * sampleOf g)).sum

/-- `total_votes = (g["grp_share_of_state"] * sample).sum()`. -/
def totalVotes (g : List FlatRow) : ℚ :=
  (g.map (fun r => r.grp_share_of_state * sampleOf g)).sum

/-- One baseline row: share and margin when `total_votes > 0`, null both
otherwise. -/
def mkBaseline (st : String) (g : List FlatRow) : Baseline :=
  if 0 < totalVotes g then
    ⟨st, sampleOf g, some (demVotes g / totalVotes g * 100),
     some (2 * (demVotes g / totalVotes g * 100) - 100)⟩
  else
    ⟨st, sampleOf g, none, none⟩

/-- `compute_state_baselines(df)`: one row per state present in the table,
in sorted state order, each group keeping the original row order. -/
def compute_state_baselines (df : List FlatRow) : List Baseline :=
  (statesOf df).map (fun st => mkBaseline st (df.filter (fun r => r.state = st)))

/-! ## State segmenter -/

/-- The canonical 50-state list. -/
def STATES : List String :=
  ["Alabama", "Alaska", "Arizona", "Arkansas", "California", "Colorado",
   "Connecticut", "Delaware", "Florida", "Georgia",
   "Hawaii", "Idaho", "Illinois", "Indiana", "Iowa", "Kansas", "Kentucky",
   "Louisiana", "Maine", "Maryland",
   "Massachusetts", "Michigan", "Minnesota", "Mississippi", "Missouri",
   "Montana", "Nebraska", "Nevada", "New Hampshire", "New Jersey",
   "New Mexico", "New York", "North Carolina", "North Dakota", "Ohio",
   "Oklahoma", "Oregon", "Pennsylvania", "Rhode Island", "South Carolina",
   "South Dakota", "Tennessee", "Texas", "Utah", "Vermont", "Virginia",
   "Washington", "West Virginia", "Wisconsin", "Wyoming"]

/-- The tail of `header_re = 2024 Presidential\s*[-–]\s*([A-Za-z ]+)` after
the dash.  Greedy `\s*` eats the whitespace run; if a letter follows, the
capture is the maximal `[A-Za-z ]` run from there; otherwise backtracking
can still hand a space of the run to the capture group, so the regex
matches with an all-space capture (stripped to `""` by the caller) exactly
when the whitespace run contains a space. -/
def matchHeaderTail (w : List Char) : Option (List Char) :=
  let ws := w.takeWhile Char.isWhitespace
  let rest := w.dropWhile Char.isWhitespace
  match rest with
  | c :: _ =>
    if c.isAlpha then some (rest.takeWhile (fun d => d.isAlpha || d == ' '))
    else if ws.contains ' ' then some [' '] else none
  | [] => if ws.contains ' ' then some [' '] else none

/-- Match the whole `header_re` at the head of `cs` (IGNORECASE literal,
then `\s*`, then a hyphen or en-dash, then the captured name). -/
def matchHeaderAt (cs : List Char) : Option (List Char) :=
  if ciPrefixAux "2024 presidential".data cs then
    match (cs.drop 17).dropWhile Char.isWhitespace with
    | c :: t => if c == '-' || c == '–' then matchHeaderTail t else none
    | [] => none
  else none

/-- `header_re.search`: leftmost match, returning the captured name. -/
def headerSearch : List Char → Option (List Char)
  | [] => none
  | c :: t =>
    match matchHeaderAt (c :: t) with
    | some cap => some cap
    | none => headerSearch t

/-- The states recorded for one page by the first pass: on a header match,
every canonical state whose uppercase name occurs in the stripped captured
name; otherwise every state appearing as a standalone uppercase line. -/
def pageHits (txt : String) : List String :=
  match headerSearch txt.data with
  | some cap =>
    STATES.filter (fun S => hasInfix (toUpperL S.data) (toUpperL (trimL cap)))
  | none =>
    STATES.filter (fun S =>
      hasInfix ('\n' :: (toUpperL S.data ++ ['\n'])) (toUpperL txt.data))

/-- Is a state already recorded (`if S not in first_page`)? -/
def lookupB (acc : List (String × Nat)) (s : String) : Bool :=
  acc.any (fun y => y.1 == s)

/-- Record each hit state of page `i` that is not yet recorded, preserving
dict insertion order. -/
def recordStates (i : Nat) (hits : List String) (acc : List (String × Nat)) :
    List (String × Nat) :=
  hits.foldl (fun a S => if lookupB a S then a else a ++ [(S, i)]) acc

/-- The page loop of `find_state_starts` (`for i, txt in enumerate(pages)`),
skipping falsy (empty) pages. -/
def pass1Aux : List String → Nat → List (String × Nat) → List (String × Nat)
  | [], _, acc => acc
  | txt :: rest, i, acc =>
    pass1Aux rest (i + 1) (if txt = "" then acc else recordStates i (pageHits txt) acc)

/-- The final-fallback scan for one state: first page containing its name as
a case-insensitive substring. -/
def findFirstPage (S : String) : List String → Nat → Option Nat
  | [], _ => none
  | txt :: rest, i =>
    if hasInfix (toUpperL S.data) (toUpperL txt.data) then some i
    else findFirstPage S rest (i + 1)

/-- The final-fallback loop (`for S in STATES`) over one remaining list of
states: a state already recorded is skipped, otherwise its first
substring-containing page (if any) is recorded. -/
def pass2Aux (pages : List String) : List String → List (String × Nat) → List (String × Nat)
  | [], acc => acc
  | S :: rest, acc =>
    pass2Aux pages rest
      (if lookupB acc S then acc
       else
         match findFirstPage S pages 0 with
         | some i => acc ++ [(S, i)]
         | none => acc)

/-- The final-fallback loop over all states still missing. -/
def pass2 (pages : List String) (acc : List (String × Nat)) : List (String × Nat) :=
  pass2Aux pages STATES acc

/-- Stable insertion by page index, modelling Python's stable `sorted` with
`key=lambda kv: kv[1]`. -/
def insertByPage (x : String × Nat) : List (String × Nat) → List (String × Nat)
  | [] => [x]
  | y :: t => if x.2 < y.2 then x :: y :: t else y :: insertByPage x t

/-- Stable sort by page index via left-to-right insertion. -/
def sortByPage (l : List (String × Nat)) : List (String × Nat) :=
  l.foldl (fun acc x => insertByPage x acc) []

/-- `find_state_starts(pages)`: the ordered state → first page mapping. -/
def find_state_starts (pages : List String) : List (String × Nat) :=
  sortByPage (pass2 pages (pass1Aux pages 0 []))

/-- The block derivation of `main`: each state's block runs from its first
page to the page before the next state's first page, the last one to the
last page of the document. -/
def deriveBlocks : List (String × Nat) → Nat → List (String × Nat × Nat)
  | [], _ => []
  | [x], n => [(x.1, x.2, n - 1)]
  | x :: nxt :: rest, n => (x.1, x.2, nxt.2 - 1) :: deriveBlocks (nxt :: rest) n

/-- `"\n".join(pages[s:e+1])`. -/
def blockText (pages : List String) (s e : Nat) : String :=
  String.mk (List.intercalate ['\n'] (((pages.drop s).take (e + 1 - s)).map String.data))

/-- The whole pipeline of `main` after page extraction: segment, parse each
block, normalize, aggregate.  (Serialization to disk is external.) -/
def runPipeline (pages : List String) : Except String (List FlatRow × List Baseline) :=
  let starts := find_state_starts pages
  let parsed := (deriveBlocks starts pages.length).map
    (fun b => (b.1, parse_state_block (blockText pages b.2.1 b.2.2)))
  match normalize_and_flatten parsed with
  | .error e => .error e
  | .ok df => .ok (df, compute_state_baselines df)

/-! ## Theorems

The arithmetic of `Rat` is wrapped in `@[irreducible]` operations; making
them semireducible inside this section lets concrete witnesses evaluate by
kernel reduction. -/

section Theorems

attribute [local semireducible] Rat.add Rat.mul Rat.sub Rat.inv

/-! ### Block parser: line selection, numeric mapping, classification, label -/

lemma entryCount_addToGroups (gs : List (GType × List Entry)) (g : GType) (e : Entry) :
    entryCount (addToGroups gs g e) = entryCount gs + 1 := by
  induction gs with
  | nil => simp [addToGroups, entryCount]
  | cons hd t ih =>
    obtain ⟨g', l⟩ := hd
    by_cases h : g' = g
    · simp only [addToGroups, if_pos h, entryCount, List.map_cons, List.sum_cons,
        List.length_append, List.length_cons, List.length_nil]
      omega
    · simp only [addToGroups, if_neg h, entryCount, List.map_cons, List.sum_cons] at *
      omega

lemma entryCount_foldl (lines : List String) :
    ∀ gs, entryCount (lines.foldl lineStep gs) =
      entryCount gs + lines.countP (fun ln => ln.data.contains '%') := by
  induction lines with
  | nil => intro gs; simp
  | cons ln rest ih =>
    intro gs
    simp only [List.foldl_cons, List.countP_cons, ih]
    by_cases h : ln.data.contains '%'
    · simp only [lineStep, if_pos h, entryCount_addToGroups, h, if_pos]
      omega
    · simp only [lineStep, if_neg h, h]
      simp

/-- Claim C2 (amended): `parse_state_block` emits exactly one `GroupEntry`
per stripped nonempty line that contains the character `%` — the gate is
`'%' in ln`, not the presence of a full percentage token, so a line with a
bare `%` and no token still yields one (valueless) entry. -/
theorem entry_iff_percent_char (text : String) :
    entryCount (parse_state_block text).groups =
      ((linesOf text).filter (fun ln => ln.data.contains '%')).length := by
  show entryCount ((linesOf text).foldl lineStep []) = _
  rw [entryCount_foldl, ← List.countP_eq_length_filter]
  simp [entryCount]

/-- Witness for the amended C2 on a concrete three-line block. -/
theorem entry_iff_percent_char_witness :
    entryCount (parse_state_block "Sample Size: 5\n18-29 20.0% 10.0%\nnope").groups =
      ((linesOf "Sample Size: 5\n18-29 20.0% 10.0%\nnope").filter
        (fun ln => ln.data.contains '%')).length :=
  entry_iff_percent_char _

/-- Claim C2 (counterexample): the line `"Other %"` contains no percentage
token (`pct_re.findall` is empty), yet `parse_state_block` emits one entry
for it, because the selection test only looks for the `%` character. -/
theorem bare_percent_line_yields_entry :
    pctFindall ("Other %".data) = [] ∧
    entryCount (parse_state_block "Other %").groups = 1 := by decide

/-- Claim C3: the ordered percentage values of a qualifying line are mapped
by count — four or more fill `(total_pct, dem_pct, gop_pct, other_pct)` from
the first four with extras ignored, exactly three fill `(dem, gop, other)`,
exactly two fill `(dem, gop)`, fewer than two leave the canonical fields
unset and store each value positionally under `colN`; the overflow mapping
and the canonical fields are never populated together. -/
theorem mapNums_spec (nums : List ℚ) :
    (∀ a b c d rest, nums = a :: b :: c :: d :: rest →
        mapNums nums = ⟨some a, some b, some c, some d, []⟩) ∧
    (∀ a b c, nums = [a, b, c] → mapNums nums = ⟨none, some a, some b, some c, []⟩) ∧
    (∀ a b, nums = [a, b] → mapNums nums = ⟨none, some a, some b, none, []⟩) ∧
    (nums.length < 2 → mapNums nums = ⟨none, none, none, none, nums.enum⟩) ∧
    ((mapNums nums).overflow ≠ [] →
      (mapNums nums).total_pct = none ∧ (mapNums nums).dem_pct = none ∧
      (mapNums nums).gop_pct = none ∧ (mapNums nums).other_pct = none) := by
  refine ⟨?_, ?_, ?_, ?_, ?_⟩
  · rintro a b c d rest rfl
    rfl
  · rintro a b c rfl
    rfl
  · rintro a b rfl
    rfl
  · intro h
    rcases nums with _ | ⟨a, _ | ⟨b, t⟩⟩
    · rfl
    · rfl
    · simp only [List.length_cons] at h
      omega
  · intro h
    rcases nums with _ | ⟨a, _ | ⟨b, _ | ⟨c, _ | ⟨d, t⟩⟩⟩⟩
    · simp [mapNums] at h
    · exact ⟨rfl, rfl, rfl, rfl⟩
    · simp [mapNums] at h
    · simp [mapNums] at h
    · simp [mapNums] at h

/-- Witness for C3 on the spec's five-token example. -/
theorem mapNums_spec_witness :
    mapNums (toNums (["45.0%", "40.0%", "35.0%", "5.0%", "2.0%"].map String.data)) =
      ⟨some 45, some 40, some 35, some 5, []⟩ :=
  (mapNums_spec _).1 45 40 35 5 [2] (by decide)

/-- Claim C6: the classification rules are checked in the fixed order Age,
Race, Education, Gender, Misc, so a line carrying an age-range token is
classified `Age` even when it also carries a race keyword. -/
theorem age_priority (s : String)
    (hage : hasAgeToken (toLowerL s.data) = true)
    (_hrace : raceKeys.any (fun k => hasKey (toLowerL s.data) k) = true) :
    classifyLine s = GType.Age := by
  simp [classifyLine, hage]

/-- Witness for C6: a line with both `White` and `18-29` classifies as Age. -/
theorem age_priority_witness :
    classifyLine "White 18-29 45.0% 40.0% 12.0% 3.0%" = GType.Age :=
  age_priority _ (by decide) (by decide)

lemma findLabelLenAux_eq_some (fuel : Nat) : ∀ (cs : List Char) (k₀ k : Nat),
    findLabelLenAux fuel cs k₀ = some k ↔
      (k₀ ≤ k ∧ k < k₀ + fuel ∧ k ≤ cs.length ∧ wsThenPct (cs.drop k) = true ∧
       ∀ j, k₀ ≤ j → j < k → wsThenPct (cs.drop j) = false) := by
  induction fuel with
  | zero =>
    intro cs k₀ k
    simp only [findLabelLenAux]
    constructor
    · intro h; cases h
    · rintro ⟨h1, h2, -⟩; omega
  | succ fuel ih =>
    intro cs k₀ k
    simp only [findLabelLenAux]
    by_cases hlen : cs.length < k₀
    · simp only [if_pos hlen]
      constructor
      · intro h; cases h
      · rintro ⟨h1, -, h3, -⟩; omega
    · simp only [if_neg hlen]
      by_cases hws : wsThenPct (cs.drop k₀) = true
      · simp only [if_pos hws]
        constructor
        · rintro ⟨rfl⟩
          exact ⟨le_refl _, by omega, by omega, hws, fun j hj1 hj2 => by omega⟩
        · rintro ⟨h1, -, -, h4, h5⟩
          rcases Nat.eq_or_lt_of_le h1 with rfl | hlt
          · rfl
          · exact absurd hws (by simp [h5 k₀ (le_refl _) hlt])
      · simp only [if_neg hws]
        rw [ih cs (k₀ + 1) k]
        constructor
        · rintro ⟨h1, h2, h3, h4, h5⟩
          refine ⟨by omega, by omega, h3, h4, fun j hj1 hj2 => ?_⟩
          rcases Nat.eq_or_lt_of_le hj1 with rfl | hlt
          · simpa using hws
          · exact h5 j hlt hj2
        · rintro ⟨h1, h2, h3, h4, h5⟩
          have hk : k₀ ≠ k := by
            rintro rfl
            exact hws h4
          exact ⟨by omega, by omega, h3, h4, fun j hj1 hj2 => h5 j (by omega) hj2⟩

/-- Claim C7 (amended): the label is the shortest prefix of length 1 to 80
characters that is followed by whitespace and then a percentage token,
trimmed; it is absent exactly when no such split of the line exists.  In
particular a line that starts with a percentage token still gets a label
(the token itself) whenever a later token follows it across whitespace, a
prefix longer than 80 characters yields no label, and text adjacent to the
first token without whitespace is not split in front of the token. -/
theorem labelOf_iff (s : String) (l : String) :
    labelOf s = some l ↔
      ∃ k, 1 ≤ k ∧ k ≤ 80 ∧ k ≤ s.data.length ∧ wsThenPct (s.data.drop k) = true ∧
        (∀ j < k, 1 ≤ j → wsThenPct (s.data.drop j) = false) ∧
        l = String.mk (trimL (s.data.take k)) := by
  unfold labelOf findLabelLen
  rw [Option.map_eq_some']
  constructor
  · rintro ⟨k, hk, rfl⟩
    rw [findLabelLenAux_eq_some] at hk
    obtain ⟨h1, h2, h3, h4, h5⟩ := hk
    exact ⟨k, h1, by omega, h3, h4, fun j hj1 hj2 => h5 j hj2 hj1, rfl⟩
  · rintro ⟨k, h1, h2, h3, h4, h5, rfl⟩
    refine ⟨k, ?_, rfl⟩
    rw [findLabelLenAux_eq_some]
    exact ⟨h1, by omega, h3, h4, fun j hj1 hj2 => h5 j hj2 hj1⟩

/-- Witness for the amended C7: the ordinary two-word label case. -/
theorem labelOf_iff_witness :
    labelOf "White men 45.0% 40.0%" = some "White men" :=
  (labelOf_iff _ _).mpr ⟨9, by decide, by decide, by decide, by decide, by decide, by decide⟩

/-- Claim C7 (counterexample): on a line that starts with a percentage token
the claim demands an absent label, but the lazy prefix of the label regex
can end right after that token, so `"45% 40% 35% 5%"` gets the label
`"45%"` even though its first percentage token sits at position 0. -/
theorem leading_token_label :
    labelOf "45% 40% 35% 5%" = some "45%" ∧
    (pctFindall ("45% 40% 35% 5%".data)).head? = some ("45%".data) := by decide

/-! ### Normalizer: the dropna filter -/

/-- Claim C9: a flattened row is retained by the `dropna` filter iff its
`state_sample`, `total_pct` and `dem_pct` are all present (numeric); the
other columns, in particular `gop_pct` and `other_pct`, play no role. -/
theorem retained_iff (parsed : List (String × ParsedState)) (r : Row) :
    r ∈ (flattenRows parsed).filter keepRow ↔
      (r ∈ flattenRows parsed ∧
       r.state_sample ≠ none ∧ r.total_pct ≠ none ∧ r.dem_pct ≠ none) := by
  simp [List.mem_filter, keepRow, Option.isSome_iff_ne_none, and_assoc]

/-- Witness for C9 at a concrete parsed state and row. -/
theorem retained_iff_witness :
    (Row.mk "Texas" (some 5) GType.Misc none (some 1) (some 2) none none "ln" ∈
      (flattenRows [("Texas", ⟨some 5,
        [(GType.Misc, [⟨none, "ln", ⟨some 1, some 2, none, none, []⟩⟩])], "h"⟩)]).filter
        keepRow) ↔
      (Row.mk "Texas" (some 5) GType.Misc none (some 1) (some 2) none none "ln" ∈
        flattenRows [("Texas", ⟨some 5,
          [(GType.Misc, [⟨none, "ln", ⟨some 1, some 2, none, none, []⟩⟩])], "h"⟩)] ∧
       (Row.mk "Texas" (some 5) GType.Misc none (some 1) (some 2) none none
          "ln").state_sample ≠ none ∧
       (Row.mk "Texas" (some 5) GType.Misc none (some 1) (some 2) none none
          "ln").total_pct ≠ none ∧
       (Row.mk "Texas" (some 5) GType.Misc none (some 1) (some 2) none none
          "ln").dem_pct ≠ none) :=
  retained_iff _ _

/-! ### Normalizer: a parsed sample size of 0 behaves as an absent sample -/

lemma rescaleRow_state (rows : List CleanRow) (r : CleanRow) :
    (rescaleRow rows r).state = r.state := by
  unfold rescaleRow
  by_cases h1 : stateSum rows r.state ≤ 0
  · simp [h1]
  · by_cases h2 : 95 ≤ stateSum rows r.state ∧ stateSum rows r.state ≤ 105
    · simp [h1, h2]
    · simp [h1, h2]

lemma mkBaseline_state (st : String) (g : List FlatRow) : (mkBaseline st g).state = st := by
  unfold mkBaseline
  by_cases h : 0 < totalVotes g
  · simp [h]
  · simp [h]

lemma insertStr_perm (x : String) (l : List String) :
    List.Perm (insertStr x l) (x :: l) := by
  induction l with
  | nil => exact List.Perm.refl _
  | cons y t ih =>
    by_cases h : x < y
    · simp only [insertStr, if_pos h]
      exact List.Perm.refl _
    · simp only [insertStr, if_neg h]
      exact (ih.cons y).trans (List.Perm.swap x y t)

lemma foldl_insertStr_perm : ∀ (l acc : List String),
    List.Perm (l.foldl (fun a x => insertStr x a) acc) (acc ++ l) := by
  intro l
  induction l with
  | nil => intro acc; simp
  | cons x t ih =>
    intro acc
    simp only [List.foldl_cons]
    refine (ih (insertStr x acc)).trans ?_
    refine (List.Perm.append_right t (insertStr_perm x acc)).trans ?_
    exact List.perm_middle.symm

lemma sortStrings_perm (l : List String) : List.Perm (sortStrings l) l := by
  simpa [sortStrings] using foldl_insertStr_perm l []

lemma statesOf_mem (df : List FlatRow) (s : String) :
    s ∈ statesOf df ↔ s ∈ df.map (fun r => r.state) := by
  rw [statesOf, (sortStrings_perm _).mem_iff, List.mem_dedup]

lemma statesOf_nodup (df : List FlatRow) : (statesOf df).Nodup :=
  ((sortStrings_perm _).nodup_iff).mpr (List.nodup_dedup _)

/-- Claim C10: a parsed sample size of exactly 0 is turned into an absent
sample by `sample = pdata.get("sample_size") or None`, so every row of such
a state is dropped by the filter and the state reaches neither the
flattened table nor the baseline table. -/
theorem sample_zero_is_absent (parsed : List (String × ParsedState)) (st : String)
    (h : ∀ x ∈ parsed, x.1 = st → x.2.sample_size = some 0) :
    (∀ r ∈ flattenRows parsed, r.state = st → r.state_sample = none) ∧
    (∀ r ∈ dfClean parsed, r.state ≠ st) ∧
    (∀ b ∈ compute_state_baselines (addDerived (rescale (dfClean parsed))),
      b.state ≠ st) := by
  have h1 : ∀ r ∈ flattenRows parsed, r.state = st → r.state_sample = none := by
    intro r hr hst
    rcases List.mem_flatMap.mp hr with ⟨sp, hsp, hr2⟩
    rcases List.mem_flatMap.mp hr2 with ⟨ge, hge, hr3⟩
    rcases List.mem_map.mp hr3 with ⟨e, he, rfl⟩
    have h0 := h sp hsp hst
    simp [orNone, h0]
  have h2 : ∀ r ∈ dfClean parsed, r.state ≠ st := by
    intro r hr hst
    rcases List.mem_map.mp hr with ⟨r₀, hr₀, rfl⟩
    rcases List.mem_filter.mp hr₀ with ⟨hm, hk⟩
    have hs : r₀.state = st := hst
    rw [keepRow, h1 r₀ hm hs] at hk
    simp at hk
  refine ⟨h1, h2, ?_⟩
  intro b hb hst
  rcases List.mem_map.mp hb with ⟨s, hs, rfl⟩
  rw [mkBaseline_state] at hst
  subst hst
  rw [statesOf_mem] at hs
  rcases List.mem_map.mp hs with ⟨fr, hfr, hfrs⟩
  rcases List.mem_map.mp hfr with ⟨cr, hcr, rfl⟩
  rcases List.mem_map.mp hcr with ⟨r, hr, rfl⟩
  exact h2 r hr (by rw [← hfrs]; exact (rescaleRow_state _ r).symm ▸ rfl)

/-- Witness for C10: a state parsed with `Sample Size: 0` yields rows whose
`state_sample` is null. -/
theorem sample_zero_is_absent_witness :
    (Row.mk "Texas" (orNone (some 0)) GType.Misc none
      (some 1) (some 2) (some 3) (some 4) "x 1% 2% 3% 4%").state_sample = none :=
  (sample_zero_is_absent
      [("Texas", ⟨some 0, [(GType.Misc, [⟨none, "x 1% 2% 3% 4%", mapNums [1, 2, 3, 4]⟩])], "h"⟩)]
      "Texas" (by decide)).1 _ (by decide) (by decide)

/-! ### Normalizer: per-state rescaling -/

lemma rescale_filter (rows : List CleanRow) (st : String) :
    (rescale rows).filter (fun r => r.state = st) =
      (rows.filter (fun r => r.state = st)).map (rescaleRow rows) := by
  unfold rescale
  rw [List.filter_map]
  congr 1
  apply List.filter_congr
  intro r _
  simp [Function.comp, rescaleRow_state]

/-- Claim C4: with S the sum of a state's retained `total_pct` values, the
state's rows are left unmodified when S ≤ 0, left unmodified when
95 ≤ S ≤ 105 (inclusive bounds), and otherwise every retained `total_pct`
of the state is multiplied by 100 / S. -/
theorem rescale_spec (rows : List CleanRow) (st : String) :
    (stateSum rows st ≤ 0 →
      (rescale rows).filter (fun r => r.state = st) =
        rows.filter (fun r => r.state = st)) ∧
    (95 ≤ stateSum rows st → stateSum rows st ≤ 105 →
      (rescale rows).filter (fun r => r.state = st) =
        rows.filter (fun r => r.state = st)) ∧
    (0 < stateSum rows st → ¬(95 ≤ stateSum rows st ∧ stateSum rows st ≤ 105) →
      (rescale rows).filter (fun r => r.state = st) =
        (rows.filter (fun r => r.state = st)).map
          (fun r => { r with total_pct := r.total_pct * (100 / stateSum rows st) })) := by
  have hmem : ∀ r ∈ rows.filter (fun r => r.state = st), r.state = st := by
    intro r hr
    simpa using (List.mem_filter.mp hr).2
  refine ⟨?_, ?_, ?_⟩
  · intro h
    rw [rescale_filter]
    conv_rhs => rw [← List.map_id (rows.filter (fun r => r.state = st))]
    apply List.map_congr_left
    intro r hr
    simp only [rescaleRow, hmem r hr, if_pos h, id]
  · intro h95 h105
    have h0 : ¬ stateSum rows st ≤ 0 := by
      intro hc
      exact absurd (le_trans h95 hc) (by norm_num)
    rw [rescale_filter]
    conv_rhs => rw [← List.map_id (rows.filter (fun r => r.state = st))]
    apply List.map_congr_left
    intro r hr
    simp only [rescaleRow, hmem r hr, if_neg h0, if_pos (And.intro h95 h105), id]
  · intro hpos hnot
    have h0 : ¬ stateSum rows st ≤ 0 := not_le.mpr hpos
    rw [rescale_filter]
    apply List.map_congr_left
    intro r hr
    simp only [rescaleRow, hmem r hr, if_neg h0, if_neg hnot]
    have harith : r.total_pct / stateSum rows st * 100 =
        r.total_pct * (100 / stateSum rows st) := by
      rw [div_mul_eq_mul_div, mul_div_assoc]
    rw [harith]

/-- Witness for C4: a state whose totals sum to 80 has each `total_pct`
multiplied by exactly 100 / 80 = 1.25. -/
theorem rescale_spec_witness :
    (rescale [⟨"Georgia", 100, GType.Misc, none, 30, 25, none, none, "a"⟩,
              ⟨"Georgia", 100, GType.Misc, none, 50, 25, none, none, "b"⟩]).filter
        (fun r => r.state = "Georgia") =
      [⟨"Georgia", 100, GType.Misc, none, 75 / 2, 25, none, none, "a"⟩,
       ⟨"Georgia", 100, GType.Misc, none, 125 / 2, 25, none, none, "b"⟩] := by
  have h := (rescale_spec
      [⟨"Georgia", 100, GType.Misc, none, 30, 25, none, none, "a"⟩,
       ⟨"Georgia", 100, GType.Misc, none, 50, 25, none, none, "b"⟩] "Georgia").2.2
      (by decide) (by decide)
  rw [h]
  decide

/-! ### Baseline aggregator -/

/-- Claim C5: each state present in the normalized table yields exactly one
baseline row, computed from that state's rows with the shared sample; when
total_votes > 0 the share is 100·dem_votes/total_votes and the margin is
2·share − 100, and when total_votes ≤ 0 both outputs are null. -/
theorem baseline_spec (df : List FlatRow) (st : String)
    (hst : st ∈ df.map (fun r => r.state)) :
    (compute_state_baselines df).filter (fun b => b.state = st) =
      [mkBaseline st (df.filter (fun r => r.state = st))] ∧
    (0 < totalVotes (df.filter (fun r => r.state = st)) →
      (mkBaseline st (df.filter (fun r => r.state = st))).baseline_dem_share =
        some (100 * demVotes (df.filter (fun r => r.state = st)) /
              totalVotes (df.filter (fun r => r.state = st))) ∧
      (mkBaseline st (df.filter (fun r => r.state = st))).baseline_margin =
        some (2 * (100 * demVotes (df.filter (fun r => r.state = st)) /
              totalVotes (df.filter (fun r => r.state = st))) - 100)) ∧
    (totalVotes (df.filter (fun r => r.state = st)) ≤ 0 →
      (mkBaseline st (df.filter (fun r => r.state = st))).baseline_dem_share = none ∧
      (mkBaseline st (df.filter (fun r => r.state = st))).baseline_margin = none) := by
  refine ⟨?_, ?_, ?_⟩
  · have key : ∀ l : List String, l.Nodup → st ∈ l →
        (l.map (fun s => mkBaseline s (df.filter (fun r => r.state = s)))).filter
          (fun b => b.state = st) =
        [mkBaseline st (df.filter (fun r => r.state = st))] := by
      intro l
      induction l with
      | nil => intro _ h; cases h
      | cons b t ih =>
        intro hnd hm
        rw [List.nodup_cons] at hnd
        by_cases heq : b = st
        · subst heq
          have ht : (t.map (fun s => mkBaseline s (df.filter (fun r => r.state = s)))).filter
              (fun x => x.state = b) = [] := by
            rw [List.filter_eq_nil_iff]
            intro x hx
            rcases List.mem_map.mp hx with ⟨s, hs, rfl⟩
            simp only [mkBaseline_state, decide_eq_true_eq]
            rintro rfl
            exact hnd.1 hs
          simp [List.filter_cons, mkBaseline_state, ht]
        · have hm' : st ∈ t := by
            rcases List.mem_cons.mp hm with h | h
            · exact absurd h.symm heq
            · exact h
          simp only [List.map_cons, List.filter_cons, mkBaseline_state, decide_eq_true_eq,
            heq, if_false]
          exact ih hnd.2 hm'
    exact key (statesOf df) (statesOf_nodup df) ((statesOf_mem df st).mpr hst)
  · intro h
    have harith : demVotes (df.filter (fun r => r.state = st)) /
        totalVotes (df.filter (fun r => r.state = st)) * 100 =
        100 * demVotes (df.filter (fun r => r.state = st)) /
        totalVotes (df.filter (fun r => r.state = st)) := by
      rw [div_mul_eq_mul_div, mul_comm]
    rw [mkBaseline, if_pos h]
    constructor
    · show some _ = some _
      rw [harith]
    · show some _ = some _
      rw [harith]
  · intro h
    have h' : ¬ 0 < totalVotes (df.filter (fun r => r.state = st)) := not_lt.mpr h
    rw [mkBaseline, if_neg h']
    exact ⟨rfl, rfl⟩

/-- Witness for C5 on the spec's example: sample 1000, rows with shares
0.6 / 0.4 and dem rates 0.5 / 0.3 give share 42 and margin −16. -/
theorem baseline_spec_witness :
    (compute_state_baselines
        [⟨"Ohio", 1000, GType.Age, none, 60, 50, none, none, "a", 6 / 10, 5 / 10⟩,
         ⟨"Ohio", 1000, GType.Age, none, 40, 30, none, none, "b", 4 / 10, 3 / 10⟩]).filter
      (fun b => b.state = "Ohio") =
      [⟨"Ohio", 1000, some 42, some (-16)⟩] := by
  have h := (baseline_spec
      [⟨"Ohio", 1000, GType.Age, none, 60, 50, none, none, "a", 6 / 10, 5 / 10⟩,
       ⟨"Ohio", 1000, GType.Age, none, 40, 30, none, none, "b", 4 / 10, 3 / 10⟩]
      "Ohio" (by decide)).1
  rw [h]
  decide

/-! ### State segmenter -/

lemma pageHits_empty : pageHits "" = [] := by decide

lemma chainLt_head : ∀ {x : String × Nat} {t : List (String × Nat)},
    List.Chain' (fun a b => a.2 < b.2) (x :: t) → ∀ z ∈ t, x.2 < z.2 := by
  intro x t
  induction t generalizing x with
  | nil => intro _ z hz; cases hz
  | cons y t' ih =>
    intro h z hz
    rw [List.chain'_cons] at h
    rcases List.mem_cons.mp hz with rfl | hz'
    · exact h.1
    · exact lt_trans h.1 (ih h.2 z hz')

lemma lookupB_append (a b : List (String × Nat)) (s : String) :
    lookupB (a ++ b) s = (lookupB a s || lookupB b s) := by
  simp [lookupB, List.any_append]

lemma lookupB_of_mem {sl : List (String × Nat)} {s : String}
    (h : s ∈ sl.map Prod.fst) : lookupB sl s = true := by
  rcases List.mem_map.mp h with ⟨y, hy, rfl⟩
  simp only [lookupB, List.any_eq_true]
  exact ⟨y, hy, by simp⟩

lemma pass1Aux_spec : ∀ (ps : List String) (i₀ : Nat) (acc sl : List (String × Nat)),
    List.Chain' (fun a b => a.2 < b.2) sl →
    (sl.map Prod.fst).Nodup →
    (∀ x ∈ sl, i₀ ≤ x.2 ∧ x.2 - i₀ < ps.length) →
    (∀ x ∈ sl, pageHits (ps.getD (x.2 - i₀) "") = [x.1]) →
    (∀ j < ps.length, (i₀ + j) ∉ sl.map Prod.snd → pageHits (ps.getD j "") = []) →
    (∀ x ∈ sl, lookupB acc x.1 = false) →
    pass1Aux ps i₀ acc = acc ++ sl := by
  intro ps
  induction ps with
  | nil =>
    intro i₀ acc sl _ _ hbound _ _ _
    have hsl : sl = [] := by
      cases sl with
      | nil => rfl
      | cons x t =>
        have := (hbound x (List.mem_cons_self x t)).2
        simp at this
    subst hsl
    simp [pass1Aux]
  | cons txt rest ih =>
    intro i₀ acc sl hchain hnodup hbound hhit hmiss hfresh
    show pass1Aux rest (i₀ + 1)
        (if txt = "" then acc else recordStates i₀ (pageHits txt) acc) = acc ++ sl
    by_cases hin : i₀ ∈ sl.map Prod.snd
    · cases sl with
      | nil => simp at hin
      | cons y sl' =>
        have hy2 : y.2 = i₀ := by
          rcases List.mem_map.mp hin with ⟨x, hx, hx2⟩
          rcases List.mem_cons.mp hx with rfl | hx'
          · exact hx2
          · have h1 := chainLt_head hchain x hx'
            have h2 := (hbound y (List.mem_cons_self y sl')).1
            omega
        have hhity : pageHits txt = [y.1] := by
          have h := hhit y (List.mem_cons_self y sl')
          rw [hy2, Nat.sub_self] at h
          simpa using h
        have htxt : ¬ txt = "" := by
          intro hc
          rw [hc, pageHits_empty] at hhity
          cases hhity
        rw [if_neg htxt, hhity]
        have hrec : recordStates i₀ [y.1] acc = acc ++ [(y.1, i₀)] := by
          have h := hfresh y (List.mem_cons_self y sl')
          simp [recordStates, h]
        rw [hrec]
        have htail : pass1Aux rest (i₀ + 1) (acc ++ [(y.1, i₀)]) =
            (acc ++ [(y.1, i₀)]) ++ sl' := by
          apply ih
          · exact (List.chain'_cons'.mp hchain).2
          · exact (List.nodup_cons.mp hnodup).2
          · intro x hx
            have hlt := chainLt_head hchain x hx
            have hb := (hbound x (List.mem_cons_of_mem y hx)).2
            simp only [List.length_cons] at hb
            omega
          · intro x hx
            have h := hhit x (List.mem_cons_of_mem y hx)
            have hlt := chainLt_head hchain x hx
            have harr : x.2 - i₀ = (x.2 - (i₀ + 1)) + 1 := by omega
            rw [harr, List.getD_cons_succ] at h
            exact h
          · intro j hj hjn
            have hnotin : (i₀ + (j + 1)) ∉ (y :: sl').map Prod.snd := by
              simp only [List.map_cons, List.mem_cons, hy2]
              push_neg
              constructor
              · omega
              · rw [show i₀ + (j + 1) = i₀ + 1 + j by omega]
                exact hjn
            have h := hmiss (j + 1) (by simp only [List.length_cons]; omega) hnotin
            rw [List.getD_cons_succ] at h
            exact h
          · intro x hx
            rw [lookupB_append, Bool.or_eq_false_iff]
            refine ⟨hfresh x (List.mem_cons_of_mem y hx), ?_⟩
            have hne : y.1 ≠ x.1 := by
              intro hc
              exact (List.nodup_cons.mp hnodup).1 (hc ▸ List.mem_map_of_mem Prod.fst hx)
            simp [lookupB, hne]
        rw [htail]
        have hy : y = (y.1, i₀) := by
          rw [← hy2]
        rw [List.append_assoc]
        simp only [List.singleton_append]
        rw [← hy]
    · have hstep : (if txt = "" then acc else recordStates i₀ (pageHits txt) acc) = acc := by
        by_cases htxt : txt = ""
        · rw [if_pos htxt]
        · rw [if_neg htxt]
          have h := hmiss 0 (by simp) (by simpa using hin)
          simp only [List.getD_cons_zero] at h
          rw [h]
          rfl
      rw [hstep]
      apply ih
      · exact hchain
      · exact hnodup
      · intro x hx
        have hb := hbound x hx
        have hne : x.2 ≠ i₀ := by
          intro hc
          exact hin (hc ▸ List.mem_map_of_mem Prod.snd hx)
        simp only [List.length_cons] at hb
        omega
      · intro x hx
        have h := hhit x hx
        have hne : x.2 ≠ i₀ := by
          intro hc
          exact hin (hc ▸ List.mem_map_of_mem Prod.snd hx)
        have hge : i₀ ≤ x.2 := (hbound x hx).1
        have harr : x.2 - i₀ = (x.2 - (i₀ + 1)) + 1 := by omega
        rw [harr, List.getD_cons_succ] at h
        exact h
      · intro j hj hjn
        have h := hmiss (j + 1) (by simp only [List.length_cons]; omega)
          (by rw [show i₀ + (j + 1) = i₀ + 1 + j by omega]; exact hjn)
        rw [List.getD_cons_succ] at h
        exact h
      · exact hfresh

lemma findFirstPage_none (S : String) : ∀ (ps : List String) (i₀ : Nat),
    (∀ txt ∈ ps, hasInfix (toUpperL S.data) (toUpperL txt.data) = false) →
    findFirstPage S ps i₀ = none := by
  intro ps
  induction ps with
  | nil => intro i₀ _; rfl
  | cons txt rest ih =>
    intro i₀ h
    simp only [findFirstPage, h txt (List.mem_cons_self txt rest)]
    exact ih (i₀ + 1) (fun t ht => h t (List.mem_cons_of_mem txt ht))

lemma pass2Aux_id (pages : List String) : ∀ (l : List String) (acc : List (String × Nat)),
    (∀ S ∈ l, lookupB acc S = true ∨ findFirstPage S pages 0 = none) →
    pass2Aux pages l acc = acc := by
  intro l
  induction l with
  | nil => intro acc _; rfl
  | cons S rest ih =>
    intro acc h
    rcases h S (List.mem_cons_self S rest) with hl | hf
    · simp only [pass2Aux, if_pos hl]
      exact ih acc (fun S' hS' => h S' (List.mem_cons_of_mem S hS'))
    · by_cases hl : lookupB acc S = true
      · simp only [pass2Aux, if_pos hl]
        exact ih acc (fun S' hS' => h S' (List.mem_cons_of_mem S hS'))
      · simp only [pass2Aux, if_neg hl, hf]
        exact ih acc (fun S' hS' => h S' (List.mem_cons_of_mem S hS'))

lemma insertByPage_append (x : String × Nat) : ∀ (acc : List (String × Nat)),
    (∀ y ∈ acc, ¬ x.2 < y.2) → insertByPage x acc = acc ++ [x] := by
  intro acc
  induction acc with
  | nil => intro _; rfl
  | cons y t ih =>
    intro h
    have hy : ¬ x.2 < y.2 := h y (List.mem_cons_self y t)
    simp only [insertByPage, if_neg hy]
    rw [ih (fun z hz => h z (List.mem_cons_of_mem y hz))]
    rfl

lemma foldl_insertByPage : ∀ (sl acc : List (String × Nat)),
    List.Chain' (fun a b => a.2 < b.2) sl →
    (∀ y ∈ acc, ∀ x ∈ sl, y.2 < x.2) →
    sl.foldl (fun a x => insertByPage x a) acc = acc ++ sl := by
  intro sl
  induction sl with
  | nil => intro acc _ _; simp
  | cons x t ih =>
    intro acc hchain hlt
    simp only [List.foldl_cons]
    have hins : insertByPage x acc = acc ++ [x] :=
      insertByPage_append x acc
        (fun y hy => not_lt.mpr (le_of_lt (hlt y hy x (List.mem_cons_self x t))))
    rw [hins]
    have harg : ∀ y ∈ acc ++ [x], ∀ z ∈ t, y.2 < z.2 := by
      intro y hy z hz
      rcases List.mem_append.mp hy with hy' | hy'
      · exact hlt y hy' z (List.mem_cons_of_mem x hz)
      · rw [List.mem_singleton.mp hy']
        exact chainLt_head hchain z hz
    rw [ih (acc ++ [x]) (List.chain'_cons'.mp hchain).2 harg]
    simp

lemma sortByPage_of_chain (sl : List (String × Nat))
    (h : List.Chain' (fun a b => a.2 < b.2) sl) : sortByPage sl = sl := by
  have hr := foldl_insertByPage sl [] h (by intro y hy; cases hy)
  simpa [sortByPage] using hr

lemma deriveBlocks_starts : ∀ (sl : List (String × Nat)) (n : Nat),
    (deriveBlocks sl n).map (fun b => (b.1, b.2.1)) = sl := by
  intro sl n
  induction sl with
  | nil => rfl
  | cons x t ih =>
    cases t with
    | nil => rfl
    | cons y t' =>
      simp only [deriveBlocks, List.map_cons, ih]

lemma deriveBlocks_chain : ∀ (sl : List (String × Nat)) (n : Nat),
    List.Chain' (fun a b => a.2 < b.2) sl →
    List.Chain' (fun b c => b.2.2 + 1 = c.2.1) (deriveBlocks sl n) := by
  intro sl n
  induction sl with
  | nil => intro _; exact List.chain'_nil
  | cons x t ih =>
    cases t with
    | nil => intro _; simp [deriveBlocks]
    | cons y t' =>
      intro h
      rw [List.chain'_cons] at h
      have hy1 : 1 ≤ y.2 := by
        have := h.1
        omega
      have htail := ih h.2
      cases t' with
      | nil =>
        simp only [deriveBlocks]
        rw [List.chain'_cons]
        exact ⟨by show y.2 - 1 + 1 = y.2; omega, List.chain'_singleton _⟩
      | cons z t'' =>
        simp only [deriveBlocks] at htail ⊢
        rw [List.chain'_cons]
        exact ⟨by show y.2 - 1 + 1 = y.2; omega, htail⟩

lemma deriveBlocks_last : ∀ (sl : List (String × Nat)) (n : Nat), sl ≠ [] →
    ((deriveBlocks sl n).getLast?).map (fun b => b.2.2) = some (n - 1) := by
  intro sl n
  induction sl with
  | nil => intro h; cases h rfl
  | cons x t ih =>
    cases t with
    | nil => intro _; rfl
    | cons y t' =>
      intro _
      have h2 := ih (by simp)
      cases t' with
      | nil =>
        rfl
      | cons z t'' =>
        simp only [deriveBlocks] at h2 ⊢
        rw [List.getLast?_cons_cons]
        exact h2

lemma deriveBlocks_cover : ∀ (t : List (String × Nat)) (x : String × Nat) (n q : Nat),
    List.Chain' (fun a b => a.2 < b.2) (x :: t) →
    (∀ z ∈ x :: t, z.2 < n) →
    x.2 ≤ q → q < n →
    (deriveBlocks (x :: t) n).countP
      (fun b => decide (b.2.1 ≤ q) && decide (q ≤ b.2.2)) = 1 := by
  intro t
  induction t with
  | nil =>
    intro x n q _ hb hq hqn
    show List.countP _ [(x.1, x.2, n - 1)] = 1
    have h2 : q ≤ n - 1 := by omega
    simp [List.countP_cons, hq, h2]
  | cons y t' ih =>
    intro x n q hchain hb hq hqn
    have hxy : x.2 < y.2 := (List.chain'_cons.mp hchain).1
    show List.countP _ ((x.1, x.2, y.2 - 1) :: deriveBlocks (y :: t') n) = 1
    rw [List.countP_cons]
    by_cases hcase : q < y.2
    · have hzero : (deriveBlocks (y :: t') n).countP
          (fun b => decide (b.2.1 ≤ q) && decide (q ≤ b.2.2)) = 0 := by
        rw [List.countP_eq_zero]
        intro b hbmem
        have hstart : (b.1, b.2.1) ∈ (y :: t') := by
          rw [← deriveBlocks_starts (y :: t') n]
          exact List.mem_map_of_mem _ hbmem
        have hge : y.2 ≤ b.2.1 := by
          rcases List.mem_cons.mp hstart with heq | hmem'
          · have hb21 : b.2.1 = y.2 := congrArg Prod.snd heq
            omega
          · have h3 : y.2 < b.2.1 :=
              chainLt_head ((List.chain'_cons'.mp hchain).2) (b.1, b.2.1) hmem'
            omega
        simp only [Bool.and_eq_true, decide_eq_true_eq, not_and]
        intro hle
        omega
      rw [hzero]
      have hcond : (decide ((x.1, x.2, y.2 - 1).2.1 ≤ q) &&
          decide (q ≤ (x.1, x.2, y.2 - 1).2.2)) = true := by
        simp only [Bool.and_eq_true, decide_eq_true_eq]
        exact ⟨hq, by omega⟩
      rw [if_pos hcond]
    · have hfalse : (decide ((x.1, x.2, y.2 - 1).2.1 ≤ q) &&
          decide (q ≤ (x.1, x.2, y.2 - 1).2.2)) = false := by
        have hno : ¬ q ≤ y.2 - 1 := by omega
        simp [hno]
      rw [hfalse]
      simp only [Bool.false_eq_true, if_false, Nat.add_zero]
      exact ih y n q (List.chain'_cons.mp hchain).2
        (fun z hz => hb z (List.mem_cons_of_mem x hz)) (not_lt.mp hcase) hqn

/-- Claim C8: on a document with k distinct unambiguous state headers at
strictly increasing page indices (each header page identifying exactly its
own state, other pages identifying none, and absent states appearing on no
page at all), `find_state_starts` returns exactly those k states ordered by
first page (never overwriting a recorded first page), and the derived
blocks start at their state's first page, are adjacent (each ends right
before the next one's start), end the last block at the document's last
page, and cover every page from the first state's page on exactly once. -/
theorem segmenter_spec (pages : List String) (sl : List (String × Nat))
    (hchain : List.Chain' (fun a b => a.2 < b.2) sl)
    (hnodup : (sl.map Prod.fst).Nodup)
    (hmem : ∀ x ∈ sl, x.1 ∈ STATES ∧ x.2 < pages.length)
    (hhit : ∀ x ∈ sl, pageHits (pages.getD x.2 "") = [x.1])
    (hmiss : ∀ j < pages.length, j ∉ sl.map Prod.snd → pageHits (pages.getD j "") = [])
    (hsub : ∀ S ∈ STATES, S ∉ sl.map Prod.fst →
      ∀ txt ∈ pages, hasInfix (toUpperL S.data) (toUpperL txt.data) = false) :
    find_state_starts pages = sl ∧
    (deriveBlocks sl pages.length).map (fun b => (b.1, b.2.1)) = sl ∧
    List.Chain' (fun b c => b.2.2 + 1 = c.2.1) (deriveBlocks sl pages.length) ∧
    (sl ≠ [] → ((deriveBlocks sl pages.length).getLast?).map (fun b => b.2.2) =
      some (pages.length - 1)) ∧
    (∀ x : String × Nat, sl.head? = some x → ∀ q, x.2 ≤ q → q < pages.length →
      (deriveBlocks sl pages.length).countP
        (fun b => decide (b.2.1 ≤ q) && decide (q ≤ b.2.2)) = 1) := by
  have hpass1 : pass1Aux pages 0 [] = sl := by
    have h := pass1Aux_spec pages 0 [] sl hchain hnodup
      (fun x hx => ⟨Nat.zero_le _, by simpa using (hmem x hx).2⟩)
      (fun x hx => by simpa using hhit x hx)
      (fun j hj hjn => hmiss j hj (by simpa using hjn))
      (fun x _ => rfl)
    simpa using h
  have hpass2 : pass2 pages sl = sl := by
    apply pass2Aux_id
    intro S hS
    by_cases hin : S ∈ sl.map Prod.fst
    · exact Or.inl (lookupB_of_mem hin)
    · exact Or.inr (findFirstPage_none S pages 0 (hsub S hS hin))
  have hmain : find_state_starts pages = sl := by
    rw [find_state_starts, hpass1, hpass2]
    exact sortByPage_of_chain sl hchain
  refine ⟨hmain, deriveBlocks_starts sl pages.length,
    deriveBlocks_chain sl pages.length hchain,
    fun hne => deriveBlocks_last sl pages.length hne, ?_⟩
  intro x hx q hq hqn
  cases sl with
  | nil => cases hx
  | cons y t =>
    have hxy : y = x := by simpa using hx
    subst hxy
    exact deriveBlocks_cover t y pages.length q hchain
      (fun z hz => (hmem z hz).2) hq hqn

/-- Witness for C8: two unambiguous headers on pages 0 and 1. -/
theorem segmenter_spec_witness :
    find_state_starts ["2024 Presidential - Alabama", "2024 Presidential - Alaska"] =
      [("Alabama", 0), ("Alaska", 1)] :=
  (segmenter_spec ["2024 Presidential - Alabama", "2024 Presidential - Alaska"]
    [("Alabama", 0), ("Alaska", 1)]
    (List.chain'_cons.mpr ⟨by decide, List.chain'_singleton _⟩)
    (by decide) (by decide) (by decide) (by decide) (by decide)).1

/-! ### The whole pipeline on a degenerate document -/

/-- Claim C1 (code bug): on a document that produces no group entry at all
(here one well-formed state page with a sample size but no `%` line),
`pd.DataFrame(rows)` has no columns and `dropna(subset=[...])` raises
`KeyError`, so `normalize_and_flatten` aborts instead of completing with
empty outputs as the specification promises. -/
theorem pipeline_keyerror_on_empty_rows :
    runPipeline ["2024 Presidential - Alabama\nSample Size: 500"] =
      Except.error "KeyError" := rfl

end Theorems

end Demographics
